import Mathlib

/-!
Shallow embedding of `ronin-wally` (`src/main.rs`), a sequential pipeline that
collects the transactions of one Ronin address from a REST service:

  list sent hashes → list received hashes → merge → `Vec::dedup()` →
  per hash: fetch summary, filter `from == to`, fetch decoded method/receipt →
  stable `sort_by(block_number)` → serialize to `<address>.json`.

Network responses are modelled by oracles (`Hash → Option RRTransaction` for
`getTransaction`'s decode outcome — `none` is a decode failure — and
`Hash → Json` for the two opaque decode endpoints).  Strings are Lean `String`s
or `List Char` where character-level recursion is needed; `u64` block numbers
carry no arithmetic, so they are `Nat`.  Rust's `from` field is `from_` (`from`
is a Lean keyword).
-/

/-- JSON values, modelling `serde_json::Value`.  Numbers are `Int`: the program
treats the decoded payloads as opaque and performs no numeric computation. -/
inductive Json where
  | null : Json
  | bool (b : Bool) : Json
  | num (n : Int) : Json
  | str (s : String) : Json
  | arr (xs : List Json) : Json
  | obj (fields : List (String × Json)) : Json

/-- The `struct RRTransaction { from, to, hash: String, block_number: u64 }`
summary returned by `/ronin/getTransaction/{hash}`. -/
structure RRTransaction where
  from_ : String
  to_ : String
  hash : String
  block_number : Nat
deriving DecidableEq, Repr

/-- The `struct RRDecodedTransaction` enriched output record with camelCase
serde renaming; `input`/`output` are `Option<serde_json::Value>`. -/
structure RRDecodedTransaction where
  from_ : String
  to_ : String
  hash : String
  block_number : Nat
  input : Option Json
  output : Option Json

/-- Rust `str::replace(pat, rep)`: replace every non-overlapping occurrence of
`pat`, scanning left to right.  Written with explicit fuel (one unit per
consumed character) so the definition is structural and kernel-evaluable;
`replaceAll` below supplies `s.length` fuel, which always suffices. -/
def replaceAllF (pat rep : List Char) : Nat → List Char → List Char
  | _, [] => []
  | 0, s => s
  | fuel + 1, c :: rest =>
    if !pat.isEmpty && pat.isPrefixOf (c :: rest) then
      rep ++ replaceAllF pat rep fuel ((c :: rest).drop pat.length)
    else
      c :: replaceAllF pat rep fuel rest

/-- Rust `str::replace` on character lists. -/
def replaceAll (pat rep s : List Char) : List Char :=
  replaceAllF pat rep s.length s

/-- Rust's `fn normalize_address(input: &str) -> String`:
`input.replace("ronin:", "0x")`. -/
def normalize_address (s : String) : String :=
  ⟨replaceAll "ronin:".data "0x".data s.data⟩

/-- Modelled from the spec: "replace the literal substring `ronin:` with `0x`
(first/only occurrence; no other normalization)".  Replaces only the first
occurrence and leaves the remainder untouched, for comparison with
`normalize_address`. -/
def spec_replace_first (pat rep : List Char) : List Char → List Char
  | [] => []
  | c :: rest =>
    if pat.isPrefixOf (c :: rest) then
      rep ++ (c :: rest).drop pat.length
    else
      c :: spec_replace_first pat rep rest

/-- The spec's reading of normalization: only the first occurrence replaced. -/
def spec_normalize_first (s : String) : String :=
  ⟨spec_replace_first "ronin:".data "0x".data s.data⟩

/-- Helper of `Vec::dedup()`: keeps the first element of every run of consecutive equal
elements: helper carrying the previously kept element. -/
def dedupAdjAux (prev : String) : List String → List String
  | [] => []
  | b :: rest => if b = prev then dedupAdjAux prev rest else b :: dedupAdjAux b rest

/-- The `total.dedup()` step: Rust's `Vec::dedup` removes only *consecutive* duplicate
elements. -/
def dedupAdj : List String → List String
  | [] => []
  | a :: rest => a :: dedupAdjAux a rest


/-- Rust `arg.split("=")`: split a character list at every `'='`. -/
def splitEq : List Char → List (List Char)
  | [] => [[]]
  | c :: rest =>
    match splitEq rest with
    | [] => [[]]
    | h :: t => if c = '=' then [] :: h :: t else (c :: h) :: t

/-- Rust's `ArgParser::split(param)`: scan the argument vector; the first argument
that starts with `param` *and* splits on `"="` into exactly two pieces yields
`Some(second piece)`; arguments that start with `param` but do not split into
two pieces are skipped (the loop continues). -/
def argSplit (param : List Char) : List (List Char) → Option (List Char)
  | [] => none
  | arg :: rest =>
    if param.isPrefixOf arg then
      let kv := splitEq arg
      if kv.length = 2 then kv.get? 1 else argSplit param rest
    else argSplit param rest

/-- Whether `main` sets `use_localhost`: `ArgParser::split("--localhost")` matched. -/
def useLocalhost (args : List (List Char)) : Bool :=
  (argSplit "--localhost".data args).isSome

/-- The base URL after the `--localhost` check: `RoninRest::new` sets
`https://ronin.rest` and `main` overwrites it with `http://localhost:3000`
when `use_localhost` holds. -/
def hostOf (args : List (List Char)) : String :=
  if useLocalhost args then "http://localhost:3000" else "https://ronin.rest"

/-- The sentinel summary substituted by `RoninRest::transaction`'s
`unwrap_or` when the response body fails to decode. -/
def sentinelTransaction : RRTransaction :=
  { from_ := "null", to_ := "null", hash := "null", block_number := 0 }

/-- Rust's `RoninRest::transaction(hash)`: the decode outcome of the
`getTransaction` response is the oracle value; `serde_json::from_str(...)
.unwrap_or(sentinel)` keeps a successful decode and substitutes the
sentinel on failure. -/
def transaction (txO : String → Option RRTransaction) (h : String) : RRTransaction :=
  (txO h).getD sentinelTransaction

/-- The GET endpoints `main`'s per-hash loop can call. -/
inductive ApiCall where
  | getTransaction (h : String)
  | decodeMethod (h : String)
  | decodeReceipt (h : String)
deriving DecidableEq, Repr

/-- One iteration of `main`'s `for hash in total` loop: fetch the summary;
when `tx.to != tx.from`, build the enriched record (decoded method as
`input`, decoded receipt as `output`, the loop's own `hash`); otherwise
produce nothing. -/
def processHash (txO : String → Option RRTransaction) (mO rO : String → Json)
    (h : String) : Option RRDecodedTransaction :=
  let tx := transaction txO h
  if tx.to_ ≠ tx.from_ then
    some { from_ := tx.from_, to_ := tx.to_, hash := h, block_number := tx.block_number,
           input := some (mO h), output := some (rO h) }
  else
    none

/-- The records accumulated into `account_data`, in loop order. -/
def processRecords (txO : String → Option RRTransaction) (mO rO : String → Json)
    (hs : List String) : List RRDecodedTransaction :=
  hs.filterMap (processHash txO mO rO)

/-- The endpoint calls one loop iteration issues: always `getTransaction`;
`decodeTransaction` then `decodeTransactionReceipt` only inside the
`tx.to != tx.from` branch. -/
def hashCalls (txO : String → Option RRTransaction) (h : String) : List ApiCall :=
  if (transaction txO h).to_ ≠ (transaction txO h).from_ then
    [ApiCall.getTransaction h, ApiCall.decodeMethod h, ApiCall.decodeReceipt h]
  else
    [ApiCall.getTransaction h]

/-- All endpoint calls of the whole loop, in order. -/
def pipelineTrace (txO : String → Option RRTransaction) (hs : List String) : List ApiCall :=
  hs.flatMap (hashCalls txO)

/-- The `sort_by` comparator: compare `block_number` only. -/
def recLE (a b : RRDecodedTransaction) : Prop :=
  a.block_number ≤ b.block_number

instance : DecidableRel recLE := fun a b => Nat.decLe a.block_number b.block_number

instance : IsTotal RRDecodedTransaction recLE :=
  ⟨fun a b => Nat.le_total a.block_number b.block_number⟩

instance : IsTrans RRDecodedTransaction recLE :=
  ⟨fun _ _ _ hab hbc => Nat.le_trans hab hbc⟩

/-- The `account_data.sort_by` call comparing `block_number`: Rust's
`sort_by` is a stable sort, modelled by insertion sort (stable) on the same
comparator. -/
def sortRecords (l : List RRDecodedTransaction) : List RRDecodedTransaction :=
  List.insertionSort recLE l

/-- The tail of `main` after the two list fetches: concatenate sent then received,
`Vec::dedup()`, run the per-hash loop, stable-sort by block number.  The
result is the sequence serialized into `<address>.json`. -/
def mainPipeline (txO : String → Option RRTransaction) (mO rO : String → Json)
    (sent received : List String) : List RRDecodedTransaction :=
  sortRecords (processRecords txO mO rO (dedupAdj (sent ++ received)))

/-- serde's `Serialize` for `Option<serde_json::Value>`: `None` becomes JSON
`null`, `Some(v)` becomes `v` itself. -/
def encodeOpt : Option Json → Json
  | none => Json.null
  | some v => v

/-- serde's `Serialize` for `RRDecodedTransaction` with
`rename_all = "camelCase"`: an object whose keys follow the struct's field
declaration order. -/
def encodeRecord (r : RRDecodedTransaction) : Json :=
  Json.obj [("from", Json.str r.from_), ("to", Json.str r.to_),
            ("hash", Json.str r.hash), ("blockNumber", Json.num r.block_number),
            ("input", encodeOpt r.input), ("output", encodeOpt r.output)]

/-- `serde_json::to_string(&account_data)`: the JSON array written to
`<address>.json`, at the level of the JSON value tree. -/
def encodeRecords (l : List RRDecodedTransaction) : Json :=
  Json.arr (l.map encodeRecord)

/-- Field lookup in a JSON object (serde accepts fields in any order; our
encoded objects have distinct keys, so first match is the field). -/
def getField (fields : List (String × Json)) (k : String) : Option Json :=
  (fields.find? (fun f => f.1 = k)).map (fun f => f.2)

/-- serde's `Deserialize` for a `String` field. -/
def asStr : Json → Option String
  | Json.str s => some s
  | _ => none

/-- serde's `Deserialize` for a `u64` field: a non-negative JSON integer.
(The `u64` upper bound is immaterial here: the program does no arithmetic
that could reach it.) -/
def asU64 : Json → Option Nat
  | Json.num n => if n < 0 then none else some n.toNat
  | _ => none

/-- serde's `Deserialize` for `Option<serde_json::Value>`: JSON `null` reads
back as `None`; every other value as `Some` of itself. -/
def asOpt : Json → Option (Option Json)
  | Json.null => some none
  | v => some (some v)

/-- serde's `Deserialize` for `RRDecodedTransaction`: every field must be
present and well-typed, otherwise the decode fails. -/
def decodeRecord : Json → Option RRDecodedTransaction
  | Json.obj fields => do
    let f ← getField fields "from" >>= asStr
    let t ← getField fields "to" >>= asStr
    let h ← getField fields "hash" >>= asStr
    let bn ← getField fields "blockNumber" >>= asU64
    let inp ← getField fields "input" >>= asOpt
    let outp ← getField fields "output" >>= asOpt
    some { from_ := f, to_ := t, hash := h, block_number := bn,
           input := inp, output := outp }
  | _ => none

/-- Deserialize each element of a JSON array of records; fail otherwise. -/
def decodeRecords : Json → Option (List RRDecodedTransaction)
  | Json.arr xs => xs.mapM decodeRecord
  | _ => none

/-! ### Concrete oracles used by the witnesses -/

/-- A summary oracle: hash `"a"` is a self-transfer, hash `"f"` fails to
decode, and every other hash is an ordinary transfer at block 2. -/
def wTxO : String → Option RRTransaction := fun h =>
  if h = "a" then some { from_ := "x", to_ := "x", hash := "a", block_number := 1 }
  else if h = "f" then none
  else some { from_ := "p", to_ := "q", hash := h, block_number := 2 }

/-- An opaque decode oracle returning `null` everywhere. -/
def wJ : String → Json := fun _ => Json.null

/-- The record the pipeline builds for hash `"b"` under `wTxO`/`wJ`. -/
def wRecB : RRDecodedTransaction :=
  { from_ := "p", to_ := "q", hash := "b", block_number := 2,
    input := some Json.null, output := some Json.null }

/-- A record with non-null decoded fields, for the round-trip witness. -/
def wRecM : RRDecodedTransaction :=
  { from_ := "a", to_ := "b", hash := "h", block_number := 5,
    input := some (Json.str "m"), output := none }


/-! ### Helper lemmas about the pipeline -/

theorem mem_mainPipeline_iff {txO : String → Option RRTransaction} {mO rO : String → Json}
    {sent received : List String} {r : RRDecodedTransaction} :
    r ∈ mainPipeline txO mO rO sent received ↔
      r ∈ processRecords txO mO rO (dedupAdj (sent ++ received)) := by
  unfold mainPipeline sortRecords
  exact List.mem_insertionSort recLE

theorem processHash_some_inv {txO : String → Option RRTransaction} {mO rO : String → Json}
    {h : String} {r : RRDecodedTransaction}
    (hE : processHash txO mO rO h = some r) :
    r = { from_ := (transaction txO h).from_, to_ := (transaction txO h).to_, hash := h,
          block_number := (transaction txO h).block_number,
          input := some (mO h), output := some (rO h) } ∧
    (transaction txO h).to_ ≠ (transaction txO h).from_ := by
  by_cases hc : (transaction txO h).to_ ≠ (transaction txO h).from_
  · refine ⟨?_, hc⟩
    simp only [processHash, if_pos hc, Option.some.injEq] at hE
    exact hE.symm
  · simp only [processHash, if_neg hc] at hE
    cases hE

theorem mem_processRecords {txO : String → Option RRTransaction} {mO rO : String → Json}
    {hs : List String} {r : RRDecodedTransaction} :
    r ∈ processRecords txO mO rO hs ↔ ∃ h, h ∈ hs ∧ processHash txO mO rO h = some r := by
  unfold processRecords
  exact List.mem_filterMap

/-- Shared core of the self-transfer filter: a hash whose summary has equal
`from` and `to` contributes no record to the pipeline output. -/
theorem hash_self_not_mem {txO : String → Option RRTransaction} {mO rO : String → Json}
    (sent received : List String) {h : String}
    (hself : (transaction txO h).from_ = (transaction txO h).to_) :
    ∀ r ∈ mainPipeline txO mO rO sent received, r.hash ≠ h := by
  intro r hr heq
  rw [mem_mainPipeline_iff, mem_processRecords] at hr
  obtain ⟨h', _, hE⟩ := hr
  obtain ⟨hrEq, hne⟩ := processHash_some_inv hE
  have : r.hash = h' := by rw [hrEq]
  subst heq
  rw [this] at hself
  exact hne hself.symm

/-! ### C4: decode failure of `getTransaction` yields the sentinel summary -/

/-- C4: for every hash whose `getTransaction` body fails to decode, the
`transaction` operation does not abort but returns the placeholder summary
`from="null", to="null", hash="null", blockNumber=0`. -/
theorem transaction_decode_failure_sentinel (txO : String → Option RRTransaction)
    (h : String) (hfail : txO h = none) :
    transaction txO h =
      { from_ := "null", to_ := "null", hash := "null", block_number := 0 } := by
  simp [transaction, hfail, sentinelTransaction]

theorem transaction_decode_failure_sentinel_witness :
    wTxO "f" = none ∧
    transaction wTxO "f" =
      { from_ := "null", to_ := "null", hash := "null", block_number := 0 } :=
  ⟨rfl, transaction_decode_failure_sentinel wTxO "f" rfl⟩

/-! ### C7: merging [h1,h2] with [h2,h3] and deduplicating -/

/-- C7: merging the sent list `[h1,h2]` with the received list `[h2,h3]` and
then running `Vec::dedup` yields exactly `[h1,h2,h3]` for distinct hashes:
the one duplicate is adjacent after concatenation, so adjacency-based dedup
removes it. -/
theorem merge_dedup_three (h1 h2 h3 : String)
    (h12 : h1 ≠ h2) (h23 : h2 ≠ h3) :
    dedupAdj ([h1, h2] ++ [h2, h3]) = [h1, h2, h3] := by
  simp [dedupAdj, dedupAdjAux, Ne.symm h12, Ne.symm h23]

theorem merge_dedup_three_witness :
    ("x" : String) ≠ "y" ∧ ("y" : String) ≠ "z" ∧
    dedupAdj (["x", "y"] ++ ["y", "z"]) = ["x", "y", "z"] :=
  ⟨by decide, by decide, merge_dedup_three "x" "y" "z" (by decide) (by decide)⟩

/-! ### C5: self-transfers never reach the output -/

/-- C5: a fetched transaction summary whose `from` field equals its `to`
field contributes no enriched record to the persisted output sequence. -/
theorem self_transfer_never_persisted (txO : String → Option RRTransaction)
    (mO rO : String → Json) (sent received : List String) (h : String)
    (hself : (transaction txO h).from_ = (transaction txO h).to_) :
    ∀ r ∈ mainPipeline txO mO rO sent received, r.hash ≠ h :=
  hash_self_not_mem sent received hself

theorem self_transfer_never_persisted_witness :
    (transaction wTxO "a").from_ = (transaction wTxO "a").to_ ∧
    wRecB ∈ mainPipeline wTxO wJ wJ ["a", "b"] [] ∧
    wRecB.hash ≠ "a" := by
  have hself : (transaction wTxO "a").from_ = (transaction wTxO "a").to_ := rfl
  have hmem : wRecB ∈ mainPipeline wTxO wJ wJ ["a", "b"] [] := by
    have : mainPipeline wTxO wJ wJ ["a", "b"] [] = [wRecB] := rfl
    rw [this]
    exact List.mem_singleton.mpr rfl
  exact ⟨hself, hmem,
    self_transfer_never_persisted wTxO wJ wJ ["a", "b"] [] "a" hself wRecB hmem⟩

/-! ### C10: persisted records always carry decoded input and output -/

/-- C10: every enriched record that reaches the persisted output has both its
`input` and its `output` field populated (`Some` of the decoded method and
receipt), although the schema declares both nullable. -/
theorem persisted_input_output_some (txO : String → Option RRTransaction)
    (mO rO : String → Json) (sent received : List String) :
    ∀ r ∈ mainPipeline txO mO rO sent received,
      r.input = some (mO r.hash) ∧ r.output = some (rO r.hash) := by
  intro r hr
  rw [mem_mainPipeline_iff, mem_processRecords] at hr
  obtain ⟨h', _, hE⟩ := hr
  obtain ⟨hrEq, -⟩ := processHash_some_inv hE
  rw [hrEq]
  exact ⟨rfl, rfl⟩

theorem persisted_input_output_some_witness :
    wRecB ∈ mainPipeline wTxO wJ wJ ["b"] [] ∧
    wRecB.input = some (wJ wRecB.hash) ∧ wRecB.output = some (wJ wRecB.hash) := by
  have hmem : wRecB ∈ mainPipeline wTxO wJ wJ ["b"] [] := by
    have : mainPipeline wTxO wJ wJ ["b"] [] = [wRecB] := rfl
    rw [this]
    exact List.mem_singleton.mpr rfl
  exact ⟨hmem, persisted_input_output_some wTxO wJ wJ ["b"] [] wRecB hmem⟩

/-! ### C6: the sort is non-decreasing by block number and stable -/

theorem filter_orderedInsert_eq (n : Nat) (r : RRDecodedTransaction)
    (l : List RRDecodedTransaction) (hr : r.block_number = n) :
    (List.orderedInsert recLE r l).filter (fun x => x.block_number == n) =
      r :: l.filter (fun x => x.block_number == n) := by
  induction l with
  | nil => simp [List.orderedInsert, hr]
  | cons b m ih =>
    by_cases hc : recLE r b
    · rw [List.orderedInsert, if_pos hc, List.filter_cons, List.filter_cons]
      simp [hr]
    · rw [List.orderedInsert, if_neg hc, List.filter_cons, List.filter_cons]
      have hb : ¬(b.block_number == n) = true := by
        simp only [recLE, not_le] at hc
        simp only [beq_iff_eq]
        omega
      simp only [hb, if_neg, Bool.false_eq_true, not_false_eq_true, ite_false, ih]

theorem filter_orderedInsert_ne (n : Nat) (r : RRDecodedTransaction)
    (l : List RRDecodedTransaction) (hr : r.block_number ≠ n) :
    (List.orderedInsert recLE r l).filter (fun x => x.block_number == n) =
      l.filter (fun x => x.block_number == n) := by
  induction l with
  | nil => simp [List.orderedInsert, hr]
  | cons b m ih =>
    by_cases hc : recLE r b
    · rw [List.orderedInsert, if_pos hc, List.filter_cons]
      simp [hr]
    · rw [List.orderedInsert, if_neg hc, List.filter_cons, List.filter_cons]
      rw [ih]

/-- C6: for every accumulated record sequence, the final `sort_by` step
produces a sequence non-decreasing by `block_number`, and for every block
number the records carrying it appear in their original accumulation order
(the sort is stable: filtering either side at any key gives the same list). -/
theorem sort_sorted_and_stable (l : List RRDecodedTransaction) :
    List.Sorted recLE (sortRecords l) ∧
    ∀ n : Nat, (sortRecords l).filter (fun x => x.block_number == n) =
      l.filter (fun x => x.block_number == n) := by
  constructor
  · exact List.sorted_insertionSort recLE l
  · intro n
    induction l with
    | nil => rfl
    | cons r m ih =>
      show (List.orderedInsert recLE r (sortRecords m)).filter _ = _
      by_cases hr : r.block_number = n
      · rw [filter_orderedInsert_eq n r _ hr, ih, List.filter_cons]
        simp [hr]
      · rw [filter_orderedInsert_ne n r _ hr, ih, List.filter_cons]
        simp [hr]

/-! ### C9: a decode-failed hash is filtered, decodes never fire, loop continues -/

/-- C9: when `getTransaction`'s body for a hash fails to decode, the sentinel
summary (`from="null"`, `to="null"`) is caught by the `tx.to != tx.from`
filter: no record with that hash reaches the output, the `decodeTransaction`
and `decodeTransactionReceipt` endpoints are never called for it, and the
loop continues with the remaining hashes unchanged. -/
theorem decode_failure_contained (txO : String → Option RRTransaction)
    (mO rO : String → Json) (sent received : List String)
    (hs rest : List String) (h : String) (hfail : txO h = none) :
    (∀ r ∈ mainPipeline txO mO rO sent received, r.hash ≠ h) ∧
    ApiCall.decodeMethod h ∉ pipelineTrace txO hs ∧
    ApiCall.decodeReceipt h ∉ pipelineTrace txO hs ∧
    processRecords txO mO rO (h :: rest) = processRecords txO mO rO rest := by
  have hsent : transaction txO h = sentinelTransaction := by
    simp [transaction, hfail]
  have hself : (transaction txO h).from_ = (transaction txO h).to_ := by
    rw [hsent]
    rfl
  have hnotbr : ¬(transaction txO h).to_ ≠ (transaction txO h).from_ := by
    rw [hsent]
    simp [sentinelTransaction]
  refine ⟨hash_self_not_mem sent received hself, ?_, ?_, ?_⟩
  · intro hmem
    rw [pipelineTrace, List.mem_flatMap] at hmem
    obtain ⟨h', -, hcall⟩ := hmem
    unfold hashCalls at hcall
    by_cases hc : (transaction txO h').to_ ≠ (transaction txO h').from_
    · rw [if_pos hc] at hcall
      simp only [List.mem_cons, List.not_mem_nil, or_false] at hcall
      rcases hcall with h1 | h1 | h1
      · exact ApiCall.noConfusion h1
      · injection h1 with hh
        subst hh
        exact hnotbr hc
      · exact ApiCall.noConfusion h1
    · rw [if_neg hc] at hcall
      simp only [List.mem_cons, List.not_mem_nil, or_false] at hcall
      exact ApiCall.noConfusion hcall
  · intro hmem
    rw [pipelineTrace, List.mem_flatMap] at hmem
    obtain ⟨h', -, hcall⟩ := hmem
    unfold hashCalls at hcall
    by_cases hc : (transaction txO h').to_ ≠ (transaction txO h').from_
    · rw [if_pos hc] at hcall
      simp only [List.mem_cons, List.not_mem_nil, or_false] at hcall
      rcases hcall with h1 | h1 | h1
      · exact ApiCall.noConfusion h1
      · exact ApiCall.noConfusion h1
      · injection h1 with hh
        subst hh
        exact hnotbr hc
    · rw [if_neg hc] at hcall
      simp only [List.mem_cons, List.not_mem_nil, or_false] at hcall
      exact ApiCall.noConfusion hcall
  · unfold processRecords
    rw [List.filterMap_cons]
    have : processHash txO mO rO h = none := by
      simp only [processHash, if_neg hnotbr]
    rw [this]

theorem decode_failure_contained_witness :
    wTxO "f" = none ∧
    (∀ r ∈ mainPipeline wTxO wJ wJ ["f", "b"] [], r.hash ≠ "f") ∧
    ApiCall.decodeMethod "f" ∉ pipelineTrace wTxO ["f", "b"] ∧
    ApiCall.decodeReceipt "f" ∉ pipelineTrace wTxO ["f", "b"] ∧
    processRecords wTxO wJ wJ ["f", "b"] = processRecords wTxO wJ wJ ["b"] :=
  ⟨rfl, decode_failure_contained wTxO wJ wJ ["f", "b"] [] ["f", "b"] ["b"] "f" rfl⟩

/-! ### C1: duplicates in the persisted output (`Vec::dedup` is adjacency-only) -/

/-- C1 counterexample: with sent `["a","b"]` and received `["a"]` the merged
list `["a","b","a"]` has no adjacent duplicates, so `Vec::dedup` removes
nothing and the hash `"a"` is persisted twice: the claim "the final output
contains no duplicate transaction hashes" fails. -/
theorem dedup_duplicate_counterexample :
    ¬ ((mainPipeline (fun h => some { from_ := "p", to_ := "q", hash := h, block_number := 1 })
          (fun _ => Json.null) (fun _ => Json.null)
          ["a", "b"] ["a"]).map (fun r => r.hash)).Nodup := by
  intro hnd
  have : (mainPipeline (fun h => some { from_ := "p", to_ := "q", hash := h, block_number := 1 })
          (fun _ => Json.null) (fun _ => Json.null)
          ["a", "b"] ["a"]).map (fun r => r.hash) = ["a", "b", "a"] := rfl
  rw [this] at hnd
  simp at hnd

/-- The hashes of the accumulated records form a sublist of the processed
hash list: each hash yields at most one record carrying that hash. -/
theorem map_hash_processRecords_sublist (txO : String → Option RRTransaction)
    (mO rO : String → Json) (hs : List String) :
    List.Sublist ((processRecords txO mO rO hs).map (fun r => r.hash)) hs := by
  induction hs with
  | nil => simp [processRecords]
  | cons h t ih =>
    unfold processRecords at ih ⊢
    rw [List.filterMap_cons]
    cases hE : processHash txO mO rO h with
    | none => exact ih.cons h
    | some r =>
      obtain ⟨hrEq, -⟩ := processHash_some_inv hE
      rw [List.map_cons]
      have : r.hash = h := by rw [hrEq]
      rw [this]
      exact ih.cons₂ h

/-- C1 amended: `total.dedup()` removes only consecutive duplicates, so the
no-duplicate guarantee holds under the hypothesis that this adjacency-based
pass leaves the merged hash list duplicate-free (in particular whenever
every pair of equal hashes is adjacent in `sent ++ received`); without it,
non-adjacent duplicates survive the dedup and can be persisted twice, as
the counterexample shows. -/
theorem dedup_nodup_output (txO : String → Option RRTransaction)
    (mO rO : String → Json) (sent received : List String)
    (hnd : (dedupAdj (sent ++ received)).Nodup) :
    ((mainPipeline txO mO rO sent received).map (fun r => r.hash)).Nodup := by
  have hperm : List.Perm (mainPipeline txO mO rO sent received)
      (processRecords txO mO rO (dedupAdj (sent ++ received))) :=
    List.perm_insertionSort recLE _
  have hperm2 := hperm.map (fun r => r.hash)
  rw [hperm2.nodup_iff]
  exact ((map_hash_processRecords_sublist txO mO rO _).nodup hnd)

theorem dedup_nodup_output_witness :
    (dedupAdj (["x", "y"] ++ ["y"])).Nodup ∧
    ((mainPipeline wTxO wJ wJ ["x", "y"] ["y"]).map (fun r => r.hash)).Nodup :=
  ⟨by decide, dedup_nodup_output wTxO wJ wJ ["x", "y"] ["y"] (by decide)⟩

/-! ### C2: `str::replace` replaces every occurrence, not only the first -/

theorem replaceAllF_fuel_irrel (pat rep : List Char) (hp : pat ≠ []) :
    ∀ f1 f2 s, s.length ≤ f1 → s.length ≤ f2 →
      replaceAllF pat rep f1 s = replaceAllF pat rep f2 s := by
  intro f1
  induction f1 with
  | zero =>
    intro f2 s h1 _
    have : s = [] := List.eq_nil_of_length_eq_zero (Nat.le_zero.mp h1)
    subst this
    cases f2 <;> rfl
  | succ f ih =>
    intro f2 s h1 h2
    cases s with
    | nil => cases f2 <;> rfl
    | cons c rest =>
      cases f2 with
      | zero => simp at h2
      | succ g =>
        show (if !pat.isEmpty && pat.isPrefixOf (c :: rest) then
                rep ++ replaceAllF pat rep f ((c :: rest).drop pat.length)
              else c :: replaceAllF pat rep f rest) =
             (if !pat.isEmpty && pat.isPrefixOf (c :: rest) then
                rep ++ replaceAllF pat rep g ((c :: rest).drop pat.length)
              else c :: replaceAllF pat rep g rest)
        by_cases hcond : (!pat.isEmpty && pat.isPrefixOf (c :: rest)) = true
        · rw [if_pos hcond, if_pos hcond]
          have hplen : 0 < pat.length := List.length_pos.mpr hp
          have hdrop : ((c :: rest).drop pat.length).length ≤ rest.length := by
            simp only [List.length_drop, List.length_cons]
            omega
          have e1 : ((c :: rest).drop pat.length).length ≤ f :=
            le_trans hdrop (by simpa using h1)
          have e2 : ((c :: rest).drop pat.length).length ≤ g :=
            le_trans hdrop (by simpa using h2)
          rw [ih g _ e1 e2]
        · rw [if_neg hcond, if_neg hcond]
          have e1 : rest.length ≤ f := by simpa using h1
          have e2 : rest.length ≤ g := by simpa using h2
          rw [ih g rest e1 e2]

theorem replaceAll_of_no_occurrence (pat rep : List Char) :
    ∀ s, ¬ (List.IsInfix pat s) → replaceAll pat rep s = s := by
  intro s
  induction s with
  | nil => intro _; rfl
  | cons c rest ih =>
    intro hni
    have hpre : pat.isPrefixOf (c :: rest) = false := by
      by_contra hcon
      have : pat.isPrefixOf (c :: rest) = true := by
        cases hx : pat.isPrefixOf (c :: rest)
        · exact absurd hx hcon
        · rfl
      exact hni (List.isPrefixOf_iff_prefix.mp this).isInfix
    show replaceAllF pat rep (rest.length + 1) (c :: rest) = c :: rest
    rw [replaceAllF]
    rw [hpre]
    simp only [Bool.and_false, Bool.false_eq_true, if_false]
    have : ¬ (List.IsInfix pat rest) := fun hx => hni (List.infix_cons hx)
    show c :: replaceAll pat rep rest = c :: rest
    rw [ih this]

theorem replaceAll_pattern_prefix (pat rep : List Char) (hp : pat ≠ []) :
    ∀ t, replaceAll pat rep (pat ++ t) = rep ++ replaceAll pat rep t := by
  intro t
  unfold replaceAll
  cases hq : pat with
  | nil => exact absurd hq hp
  | cons p ps =>
    rw [← hq]
    have hcons : pat ++ t = p :: (ps ++ t) := by rw [hq]; rfl
    rw [hcons]
    show replaceAllF pat rep ((p :: (ps ++ t)).length) (p :: (ps ++ t)) = _
    have hlen : (p :: (ps ++ t)).length = (ps ++ t).length + 1 := rfl
    rw [hlen, replaceAllF]
    have hne : pat.isEmpty = false := by rw [hq]; rfl
    have hpre : pat.isPrefixOf (p :: (ps ++ t)) = true := by
      rw [← hcons]
      exact List.isPrefixOf_iff_prefix.mpr (List.prefix_append pat t)
    rw [hne, hpre]
    simp only [Bool.not_false, Bool.true_and, if_true]
    have hdrop : (p :: (ps ++ t)).drop pat.length = t := by
      rw [← hcons]
      exact List.drop_left pat t
    rw [hdrop]
    have hplen : 0 < pat.length := List.length_pos.mpr hp
    have hflen : t.length ≤ (ps ++ t).length := by
      simp [List.length_append]
    rw [replaceAllF_fuel_irrel pat rep hp ((ps ++ t).length) (t.length) t hflen le_rfl]

/-- C2 counterexample: on `"ronin:ronin:x"` the code replaces *both*
occurrences (`"0x0xx"`), while the claim's first-occurrence-only reading
(`spec_normalize_first`, modelled from the spec) yields `"0xronin:x"`. -/
theorem normalize_address_counterexample :
    normalize_address "ronin:ronin:x" = "0x0xx" ∧
    spec_normalize_first "ronin:ronin:x" = "0xronin:x" ∧
    normalize_address "ronin:ronin:x" ≠ spec_normalize_first "ronin:ronin:x" := by
  refine ⟨by decide, by decide, by decide⟩

/-- C2 amended: normalization replaces *every* left-to-right non-overlapping
occurrence of `"ronin:"` with `"0x"`, not only the first: a string without
the substring is returned unchanged, and a string starting with `"ronin:"`
becomes `"0x"` followed by the normalization of the remainder (so later
occurrences are replaced as well); nothing else is altered. -/
theorem normalize_address_replaces_every_occurrence :
    (∀ s : String, ¬ (List.IsInfix "ronin:".data s.data) → normalize_address s = s) ∧
    (∀ t : String, normalize_address ("ronin:" ++ t) = "0x" ++ normalize_address t) := by
  constructor
  · intro s hni
    unfold normalize_address
    rw [replaceAll_of_no_occurrence _ _ _ hni]
  · intro t
    apply String.ext
    show (normalize_address ("ronin:" ++ t)).data = ("0x" ++ normalize_address t).data
    unfold normalize_address
    rw [String.data_append, String.data_append]
    exact replaceAll_pattern_prefix "ronin:".data "0x".data (by decide) t.data

theorem normalize_address_replaces_every_occurrence_witness :
    ¬ (List.IsInfix "ronin:".data "0xabc".data) ∧
    normalize_address "0xabc" = "0xabc" ∧
    normalize_address ("ronin:" ++ "x") = "0x" ++ normalize_address "x" :=
  ⟨by decide, normalize_address_replaces_every_occurrence.1 "0xabc" (by decide),
   normalize_address_replaces_every_occurrence.2 "x"⟩

/-! ### C3: the `--localhost` flag only takes effect in `key=value` form -/

theorem argSplit_isSome_iff (param : List Char) :
    ∀ args, (argSplit param args).isSome ↔
      ∃ arg, arg ∈ args ∧ param.isPrefixOf arg ∧ (splitEq arg).length = 2 := by
  intro args
  induction args with
  | nil => simp [argSplit]
  | cons a rest ih =>
    by_cases hpre : param.isPrefixOf a
    · by_cases hlen : (splitEq a).length = 2
      · constructor
        · intro _
          exact ⟨a, List.mem_cons_self a rest, hpre, hlen⟩
        · intro _
          show (if param.isPrefixOf a then
                  if (splitEq a).length = 2 then (splitEq a).get? 1
                  else argSplit param rest
                else argSplit param rest).isSome
          rw [if_pos hpre, if_pos hlen]
          rw [Option.isSome_iff_ne_none]
          rw [Ne, List.get?_eq_none]
          omega
      · show (if param.isPrefixOf a then
                if (splitEq a).length = 2 then (splitEq a).get? 1
                else argSplit param rest
              else argSplit param rest).isSome ↔ _
        rw [if_pos hpre, if_neg hlen, ih]
        constructor
        · rintro ⟨arg, hm, hx⟩
          exact ⟨arg, List.mem_cons_of_mem a hm, hx⟩
        · rintro ⟨arg, hm, hx⟩
          rcases List.mem_cons.mp hm with rfl | hm2
          · exact absurd hx.2 hlen
          · exact ⟨arg, hm2, hx⟩
    · show (if param.isPrefixOf a then
              if (splitEq a).length = 2 then (splitEq a).get? 1
              else argSplit param rest
            else argSplit param rest).isSome ↔ _
      rw [if_neg hpre, ih]
      constructor
      · rintro ⟨arg, hm, hx⟩
        exact ⟨arg, List.mem_cons_of_mem a hm, hx⟩
      · rintro ⟨arg, hm, hx⟩
        rcases List.mem_cons.mp hm with rfl | hm2
        · exact absurd hx.1 hpre
        · exact ⟨arg, hm2, hx⟩

/-- C3 counterexample: an argument vector containing the bare flag
`--localhost` (no `=value` part) leaves the base URL at the default remote
host: `ArgParser::split` skips arguments that do not split on `"="` into
exactly two pieces, so the claim "if the arguments contain `--localhost`
then the base URL is `http://localhost:3000`" fails. -/
theorem localhost_flag_counterexample :
    "--localhost".data ∈ ["--localhost".data] ∧
    hostOf ["--localhost".data] = "https://ronin.rest" := by
  refine ⟨by decide, by decide⟩

/-- C3 amended: the base URL is `http://localhost:3000` iff some argument
starts with `--localhost` *and* splits on `"="` into exactly two pieces
(e.g. `--localhost=1`); otherwise — including for a bare `--localhost` —
it remains `https://ronin.rest`. -/
theorem localhost_iff (args : List (List Char)) :
    hostOf args = "http://localhost:3000" ↔
      ∃ arg, arg ∈ args ∧ "--localhost".data.isPrefixOf arg ∧
        (splitEq arg).length = 2 := by
  rw [← argSplit_isSome_iff]
  unfold hostOf useLocalhost
  cases hx : (argSplit "--localhost".data args).isSome
  · simp only [Bool.false_eq_true, if_false]
    constructor
    · intro hcon
      exact absurd hcon (by decide)
    · intro hcon
      cases hcon
  · simp

theorem localhost_iff_witness :
    hostOf ["--localhost=1".data] = "http://localhost:3000" :=
  (localhost_iff ["--localhost=1".data]).mpr
    ⟨"--localhost=1".data, by decide, by decide, by decide⟩

/-! ### C8: the JSON round-trip and the `Some(null)` collapse -/

theorem asOpt_encodeOpt (o : Option Json) (h : o ≠ some Json.null) :
    asOpt (encodeOpt o) = some o := by
  cases o with
  | none => rfl
  | some v =>
    cases v with
    | null => exact absurd rfl h
    | bool b => rfl
    | num n => rfl
    | str s => rfl
    | arr xs => rfl
    | obj fs => rfl

theorem asU64_ofNat (n : Nat) : asU64 (Json.num n) = some n := by
  show (if ((n : Int) < 0) then none else some ((n : Int).toNat)) = some n
  rw [if_neg (by omega)]
  simp

theorem decodeRecord_encodeRecord (r : RRDecodedTransaction)
    (hi : r.input ≠ some Json.null) (ho : r.output ≠ some Json.null) :
    decodeRecord (encodeRecord r) = some r := by
  have hin := asOpt_encodeOpt r.input hi
  have hout := asOpt_encodeOpt r.output ho
  simp [decodeRecord, encodeRecord, getField, List.find?, asStr, asU64_ofNat,
    Option.bind, hin, hout]

/-- C8 counterexample: a record whose `input` holds an explicit JSON `null`
(`Some(Value::Null)`) serializes to the field value `null`, which serde reads
back as `None`: the round-tripped record is not structurally identical — the
non-null (`Some`) status of `input` became null (`None`). -/
theorem roundtrip_counterexample :
    decodeRecords (encodeRecords
      [{ from_ := "a", to_ := "b", hash := "h", block_number := 1,
         input := some Json.null, output := none }]) =
      some [{ from_ := "a", to_ := "b", hash := "h", block_number := 1,
              input := none, output := none }] ∧
    ({ from_ := "a", to_ := "b", hash := "h", block_number := 1,
       input := none, output := none } : RRDecodedTransaction) ≠
      { from_ := "a", to_ := "b", hash := "h", block_number := 1,
        input := some Json.null, output := none } := by
  constructor
  · rfl
  · intro hEq
    have := congrArg (fun r => r.input) hEq
    simp at this

/-- C8 amended: serializing a record sequence and deserializing it back
yields the same records — same field presence and same null/non-null status
of `input` and `output` — provided no record stores an explicit JSON `null`
inside a present (`Some`) `input`/`output` field; such a field collapses
from `Some(null)` to `None` on re-reading. -/
theorem roundtrip_records (l : List RRDecodedTransaction)
    (hl : ∀ r ∈ l, r.input ≠ some Json.null ∧ r.output ≠ some Json.null) :
    decodeRecords (encodeRecords l) = some l := by
  induction l with
  | nil => rfl
  | cons r t ih =>
    have hr := hl r (List.mem_cons_self r t)
    have ht : ∀ x ∈ t, x.input ≠ some Json.null ∧ x.output ≠ some Json.null :=
      fun x hx => hl x (List.mem_cons_of_mem r hx)
    show (encodeRecord r :: t.map encodeRecord).mapM decodeRecord = some (r :: t)
    rw [List.mapM_cons]
    have htEq : (t.map encodeRecord).mapM decodeRecord = some t := ih ht
    rw [decodeRecord_encodeRecord r hr.1 hr.2, htEq]
    rfl

theorem roundtrip_records_witness :
    (∀ r ∈ [wRecM], r.input ≠ some Json.null ∧ r.output ≠ some Json.null) ∧
    decodeRecords (encodeRecords [wRecM]) = some [wRecM] := by
  have hl : ∀ r ∈ [wRecM], r.input ≠ some Json.null ∧ r.output ≠ some Json.null := by
    intro r hr
    rw [List.mem_singleton] at hr
    subst hr
    constructor
    · intro hx
      cases hx
    · intro hx
      cases hx
  exact ⟨hl, roundtrip_records _ hl⟩
